import Mathlib

/-!
Shallow embedding of `src/data/mechanism.py` from the Comb_auction repository.

Python dicts are modelled as association lists with insertion-order
update-in-place / append-at-end semantics (matching CPython), Python sets of
token pairs and order ids as `Finset`.  Machine integers in the source are
Python `int` (unbounded), so scores are `Int`.
-/

open List

structure Trade where
  id : String
  sell_token : String
  buy_token : String
  score : Int
deriving DecidableEq, Repr

structure Solution where
  id : String
  solver : String
  score : Int
  trades : List Trade
deriving DecidableEq, Repr

abbrev TokenPair := String × String

/-- `get_orders`: the set of trade ids appearing in any solution of the list. -/
def get_orders (solutions : List Solution) : Finset String :=
  ((solutions.map (fun solution => solution.trades.map Trade.id)).flatten).toFinset

/-- Python `scores[k] = scores.get(k, 0) + v` on an insertion-ordered dict:
update the existing entry in place, or append a new one at the end. -/
def addScore : List (TokenPair × Int) → TokenPair → Int → List (TokenPair × Int)
  | [], k, v => [(k, v)]
  | (k', v') :: rest, k, v =>
    if k' = k then (k', v' + v) :: rest else (k', v') :: addScore rest k v

/-- `aggregate_scores`: sums trade scores per directed token pair. -/
def aggregate_scores (solution : Solution) : List (TokenPair × Int) :=
  solution.trades.foldl
    (fun scores trade => addScore scores (trade.sell_token, trade.buy_token) trade.score) []

/-- Dict lookup on an association list keyed by token pairs. -/
def alookup {α : Type} : List (TokenPair × α) → TokenPair → Option α
  | [], _ => none
  | (k', a) :: rest, k => if k' = k then some a else alookup rest k

/-- Python `d[k] = a` on an insertion-ordered dict. -/
def setEntry {α : Type} : List (TokenPair × α) → TokenPair → α → List (TokenPair × α)
  | [], k, a => [(k, a)]
  | (k', a') :: rest, k, a =>
    if k' = k then (k', a) :: rest else (k', a') :: setEntry rest k a

/-- One step of the inner loop of `compute_baseline_solutions`: install
`solution` as the baseline for `p.1` when no baseline exists yet or the new
aggregated score is strictly higher than the stored baseline's `score` field. -/
def updateBaseline (base : List (TokenPair × Solution)) (solution : Solution)
    (p : TokenPair × Int) : List (TokenPair × Solution) :=
  match alookup base p.1 with
  | none => setEntry base p.1 solution
  | some cur => if p.2 > cur.score then setEntry base p.1 solution else base

/-- `compute_baseline_solutions`: per token pair, the best solution among those
whose aggregated-score mapping has at most one key. -/
def compute_baseline_solutions (solutions : List Solution) : List (TokenPair × Solution) :=
  solutions.foldl
    (fun base solution =>
      let aggregated_scores := aggregate_scores solution
      if 1 < aggregated_scores.length then base
      else aggregated_scores.foldl (fun b p => updateBaseline b solution p) base)
    []

/-- The rejection threshold used by `BaselineFilter.filter` for one token pair:
the sum of the baseline solution's trades' scores, or `0` when no baseline
exists for the pair. -/
def baselineTotalScore (base : List (TokenPair × Solution)) (token_pair : TokenPair) : Int :=
  match alookup base token_pair with
  | some baseline => (baseline.trades.map Trade.score).sum
  | none => 0

/-- The acceptance predicate of `BaselineFilter.filter` for one solution. -/
def baselinePasses (base : List (TokenPair × Solution)) (solution : Solution) : Bool :=
  let aggregated_scores := aggregate_scores solution
  aggregated_scores.length == 1 ||
    aggregated_scores.all (fun p => decide (baselineTotalScore base p.1 ≤ p.2))

/-- `BaselineFilter.filter`. -/
def BaselineFilter_filter (solutions : List Solution) : List Solution :=
  let baseline_solutions := compute_baseline_solutions solutions
  solutions.filter (fun solution => baselinePasses baseline_solutions solution)

/-- `DirectedTokenPairs.get_filter_set`: the set of directed token pairs
touched by the solution's trades. -/
def get_filter_set (solution : Solution) : Finset TokenPair :=
  (solution.trades.map (fun trade => (trade.sell_token, trade.buy_token))).toFinset

/-- Insertion step of a stable descending-by-score sort: `a` is placed before
the first element whose score is at most `a.score`, so an element inserted
later (i.e. earlier in the input) precedes equal-score elements. -/
def insertDesc (a : Solution) : List Solution → List Solution
  | [] => [a]
  | b :: l => if b.score ≤ a.score then a :: b :: l else b :: insertDesc a l

/-- Python `sorted(solutions, key=lambda s: s.score, reverse=True)`: the stable
descending-by-score sort (Python's sort is stable; a stable sort is uniquely
determined by its comparator, see the permutation, sortedness and stability
lemmas below). -/
def sortedSolutions : List Solution → List Solution
  | [] => []
  | a :: l => insertDesc a (sortedSolutions l)

/-- The scan loop of `SubsetFilteringSelection.select_solutions`: accept a
solution when its filter set does not intersect the blocked set, and union its
filter set into the blocked set on acceptance (always, in cumulative mode). -/
def select_go (cumulative_filtering : Bool) :
    List Solution → List Solution → Finset TokenPair → List Solution
  | [], selection, _ => selection
  | solution :: rest, selection, filter_set =>
    if get_filter_set solution ∩ filter_set = ∅ then
      select_go cumulative_filtering rest (selection ++ [solution])
        (filter_set ∪ get_filter_set solution)
    else
      select_go cumulative_filtering rest selection
        (if cumulative_filtering then filter_set ∪ get_filter_set solution else filter_set)

/-- `SubsetFilteringSelection.select_solutions` with the `DirectedTokenPairs`
compatibility provider. -/
def select_solutions (cumulative_filtering : Bool) (solutions : List Solution) : List Solution :=
  select_go cumulative_filtering (sortedSolutions solutions) [] ∅

/-- `DirectSelection.select_winners` over `SubsetFilteringSelection`. -/
def DirectSelection_select_winners (cumulative_filtering : Bool)
    (solutions : List Solution) : List Solution :=
  select_solutions cumulative_filtering solutions

/-- Python `d[k] = v` on an insertion-ordered dict keyed by strings. -/
def setReward : List (String × Int) → String → Int → List (String × Int)
  | [], k, v => [(k, v)]
  | (k', v') :: rest, k, v =>
    if k' = k then (k', v) :: rest else (k', v') :: setReward rest k v

/-- `NoReward.compute_rewards`: the dict comprehension
`\x7bwinner.id: 0 for winner in winners\x7d`. -/
def NoReward_compute_rewards (winners : List Solution) (_solutions : List Solution) :
    List (String × Int) :=
  winners.foldl (fun rewards winner => setReward rewards winner.id 0) []

/-- `FilterRankRewardMechanism.winners_and_rewards`, parametrised over the
three collaborator operations exactly as the class is over its fields. -/
def FilterRankRewardMechanism_winners_and_rewards
    (solution_filter : List Solution → List Solution)
    (winner_selection : List Solution → List Solution)
    (reward_mechanism : List Solution → List Solution → List (String × Int))
    (solutions : List Solution) : List Solution × List (String × Int) :=
  let filtered_solutions := solution_filter solutions
  let winners := winner_selection filtered_solutions
  let rewards := reward_mechanism winners filtered_solutions
  (winners, rewards)

/-- `remove_order_from_solution`: drop the trades whose id is settled and
recompute the score as the sum of the remaining trades' scores. -/
def remove_order_from_solution (solution : Solution) (order_uids : Finset String) : Solution :=
  let trades_filtered := solution.trades.filter (fun trade => decide (trade.id ∉ order_uids))
  { id := solution.id
    solver := solution.solver
    score := (trades_filtered.map Trade.score).sum
    trades := trades_filtered }

/-- The per-auction derivation step of `run_counter_factual_winners` when
`remove_executed_orders` is true: remove settled orders from every solution,
then keep only the solutions with strictly positive recomputed score. -/
def prepare_auction (order_uids_settled : Finset String) (solutions : List Solution) :
    List Solution :=
  (solutions.map (fun solution => remove_order_from_solution solution order_uids_settled)).filter
    (fun s => decide (0 < s.score))

/-- The loop of `run_counter_factual_winners`, recording after each auction the
winners list and the settled-order set as updated by that auction. -/
def run_cf_trace (mechanism : List Solution → List Solution × List (String × Int))
    (remove_executed_orders : Bool) :
    Finset String → List (List Solution) → List (List Solution × Finset String)
  | _, [] => []
  | order_uids_settled, solutions :: rest =>
    let solutions_filtered :=
      if remove_executed_orders then prepare_auction order_uids_settled solutions
      else solutions
    let winners := (mechanism solutions_filtered).1
    let settled2 := order_uids_settled ∪ get_orders winners
    (winners, settled2) :: run_cf_trace mechanism remove_executed_orders settled2 rest

/-- `run_counter_factual_winners`: winners per auction, starting from an empty
settled-order set. -/
def run_counter_factual_winners (auction_solutions_list : List (List Solution))
    (mechanism : List Solution → List Solution × List (String × Int))
    (remove_executed_orders : Bool) : List (List Solution) :=
  (run_cf_trace mechanism remove_executed_orders ∅ auction_solutions_list).map Prod.fst

/-! ### Concrete values used by the scenario claims -/

/-- The single-pair solution S1 of the spec's first concrete scenario. -/
def S1c : Solution := ⟨"S1", "solver1", 10, [⟨"o1", "A", "B", 10⟩]⟩

/-- The single-pair solution S2 of the spec's first concrete scenario. -/
def S2c : Solution := ⟨"S2", "solver2", 7, [⟨"o2", "A", "B", 7⟩]⟩

/-- A solution on the distinct pair (C, D). -/
def SCDc : Solution := ⟨"S3", "solver3", 5, [⟨"o3", "C", "D", 5⟩]⟩

/-- A winner whose solution id differs from its solver identifier. -/
def w1c : Solution := ⟨"sol1", "solverA", 0, []⟩

/-- The trade settled by auction 1 in the counterfactual scenario. -/
def t1c : Trade := ⟨"t1", "A", "B", 5⟩

/-- Auction 1's sole solution, settling trade "t1". -/
def sol1c : Solution := ⟨"s1", "a", 5, [t1c]⟩

/-- Auction 2's sole solution, whose only trade is the already settled "t1". -/
def sol2c : Solution := ⟨"s2", "b", 5, [t1c]⟩

/-- A solution with an empty trades list. -/
def s0c : Solution := ⟨"s0", "z", 0, []⟩

/-- A solution touching the two distinct pairs (A, B) and (C, D). -/
def sMultic : Solution := ⟨"M", "m", 9, [⟨"oM1", "A", "B", 4⟩, ⟨"oM2", "C", "D", 5⟩]⟩

/-- The mechanism assembled in `winner_selection.py`: `BaselineFilter`,
`DirectSelection (SubsetFilteringSelection (cumulative_filtering := False))`,
`NoReward`. -/
def mechC : List Solution → List Solution × List (String × Int) :=
  FilterRankRewardMechanism_winners_and_rewards BaselineFilter_filter
    (select_solutions false) NoReward_compute_rewards

/-! ### Lemmas about the stable descending sort -/

lemma mem_insertDesc (a x : Solution) (m : List Solution) :
    x ∈ insertDesc a m ↔ x = a ∨ x ∈ m := by
  induction m with
  | nil => simp [insertDesc]
  | cons b l ih =>
    by_cases h : b.score ≤ a.score
    · simp [insertDesc, h]
    · simp only [insertDesc, if_neg h, List.mem_cons, ih]
      tauto

lemma insertDesc_perm (a : Solution) (m : List Solution) : insertDesc a m ~ a :: m := by
  induction m with
  | nil => simp [insertDesc]
  | cons b l ih =>
    by_cases h : b.score ≤ a.score
    · simp [insertDesc, h]
    · simp only [insertDesc, if_neg h]
      exact (ih.cons b).trans (List.Perm.swap a b l)

lemma sortedSolutions_perm (l : List Solution) : sortedSolutions l ~ l := by
  induction l with
  | nil => simp [sortedSolutions]
  | cons a l ih => exact (insertDesc_perm a (sortedSolutions l)).trans (ih.cons a)

lemma pairwise_insertDesc {a : Solution} {m : List Solution}
    (hm : m.Pairwise (fun x y => y.score ≤ x.score)) :
    (insertDesc a m).Pairwise (fun x y => y.score ≤ x.score) := by
  induction m with
  | nil => simp [insertDesc]
  | cons b l ih =>
    rcases List.pairwise_cons.mp hm with ⟨hb, hl⟩
    by_cases h : b.score ≤ a.score
    · simp only [insertDesc, if_pos h]
      refine List.pairwise_cons.mpr ⟨?_, hm⟩
      intro x hx
      rcases List.mem_cons.mp hx with rfl | hx
      · exact h
      · exact le_trans (hb x hx) h
    · simp only [insertDesc, if_neg h]
      refine List.pairwise_cons.mpr ⟨?_, ih hl⟩
      intro x hx
      rcases (mem_insertDesc a x l).mp hx with rfl | hx
      · exact le_of_not_le h
      · exact hb x hx

lemma sortedSolutions_pairwise (l : List Solution) :
    (sortedSolutions l).Pairwise (fun x y => y.score ≤ x.score) := by
  induction l with
  | nil => simp [sortedSolutions]
  | cons a l ih => exact pairwise_insertDesc ih

lemma sublist_insertDesc (a : Solution) {c m : List Solution} (h : c <+ m) :
    c <+ insertDesc a m := by
  induction m generalizing c with
  | nil =>
    rw [List.sublist_nil.mp h]
    exact List.nil_sublist _
  | cons b l ih =>
    by_cases hba : b.score ≤ a.score
    · simp only [insertDesc, if_pos hba]
      exact h.cons a
    · simp only [insertDesc, if_neg hba]
      cases h with
      | cons _ h' => exact (ih h').cons b
      | cons₂ _ h' => exact (ih h').cons₂ b

lemma cons_sublist_insertDesc (a : Solution) {c m : List Solution} (h : c <+ m)
    (hc : ∀ x ∈ c, x.score ≤ a.score) : a :: c <+ insertDesc a m := by
  induction m generalizing c with
  | nil =>
    rw [List.sublist_nil.mp h]
    simp [insertDesc]
  | cons b l ih =>
    by_cases hba : b.score ≤ a.score
    · simp only [insertDesc, if_pos hba]
      exact h.cons₂ a
    · simp only [insertDesc, if_neg hba]
      cases h with
      | cons _ h' => exact (ih h' hc).cons b
      | cons₂ _ h' => exact absurd (hc b (List.mem_cons_self b _)) hba

lemma sublist_sortedSolutions {c l : List Solution} (h : c <+ l)
    (hc : c.Pairwise (fun x y => y.score ≤ x.score)) : c <+ sortedSolutions l := by
  induction l generalizing c with
  | nil =>
    rw [List.sublist_nil.mp h]
    exact List.nil_sublist _
  | cons a l ih =>
    cases h with
    | cons _ h' => exact sublist_insertDesc a (ih h' hc)
    | cons₂ _ h' =>
      rcases List.pairwise_cons.mp hc with ⟨ha, hc'⟩
      exact cons_sublist_insertDesc a (ih h' hc') ha

/-! ### Lemmas about the greedy selection scan -/

lemma select_go_cons_pos {cum : Bool} {solution : Solution} {rest selection : List Solution}
    {fs : Finset TokenPair} (h : get_filter_set solution ∩ fs = ∅) :
    select_go cum (solution :: rest) selection fs =
      select_go cum rest (selection ++ [solution]) (fs ∪ get_filter_set solution) := by
  simp [select_go, h]

lemma select_go_cons_neg {cum : Bool} {solution : Solution} {rest selection : List Solution}
    {fs : Finset TokenPair} (h : ¬ get_filter_set solution ∩ fs = ∅) :
    select_go cum (solution :: rest) selection fs =
      select_go cum rest selection
        (if cum then fs ∪ get_filter_set solution else fs) := by
  simp [select_go, h]

/-- The scan only ever appends to the accumulated selection, and what it
appends is a subsequence of the remaining input. -/
lemma select_go_append (cum : Bool) :
    ∀ (l selection : List Solution) (fs : Finset TokenPair),
      ∃ t, select_go cum l selection fs = selection ++ t ∧ t <+ l := by
  intro l
  induction l with
  | nil =>
    intro selection fs
    exact ⟨[], by simp [select_go], List.nil_sublist _⟩
  | cons solution rest ih =>
    intro selection fs
    by_cases h : get_filter_set solution ∩ fs = ∅
    · rw [select_go_cons_pos h]
      obtain ⟨t, ht, hsub⟩ := ih (selection ++ [solution]) (fs ∪ get_filter_set solution)
      refine ⟨solution :: t, ?_, hsub.cons₂ solution⟩
      rw [ht, List.append_assoc]
      rfl
    · rw [select_go_cons_neg h]
      obtain ⟨t, ht, hsub⟩ := ih selection _
      exact ⟨t, ht, hsub.cons solution⟩

lemma mem_select_go_of_mem_selection {cum : Bool} {l selection : List Solution}
    {fs : Finset TokenPair} {x : Solution} (hx : x ∈ selection) :
    x ∈ select_go cum l selection fs := by
  obtain ⟨t, ht, -⟩ := select_go_append cum l selection fs
  rw [ht]
  exact List.mem_append_left t hx

lemma select_go_cons_neg_false {solution : Solution} {rest selection : List Solution}
    {fs : Finset TokenPair} (h : ¬ get_filter_set solution ∩ fs = ∅) :
    select_go false (solution :: rest) selection fs = select_go false rest selection fs := by
  rw [select_go_cons_neg h, if_neg (by simp)]

/-- Invariant proof for C5: if every already selected solution's filter set is
inside the blocked set and the accumulated selection is pairwise disjoint,
then the final selection is pairwise disjoint. -/
lemma select_go_pairwise {cum : Bool} :
    ∀ (l selection : List Solution) (fs : Finset TokenPair),
      (∀ x ∈ selection, get_filter_set x ⊆ fs) →
      selection.Pairwise (fun a b => get_filter_set a ∩ get_filter_set b = ∅) →
      (select_go cum l selection fs).Pairwise
        (fun a b => get_filter_set a ∩ get_filter_set b = ∅) := by
  intro l
  induction l with
  | nil =>
    intro selection fs _ hp
    simpa [select_go] using hp
  | cons solution rest ih =>
    intro selection fs hsub hp
    by_cases h : get_filter_set solution ∩ fs = ∅
    · rw [select_go_cons_pos h]
      apply ih
      · intro x hx
        rcases List.mem_append.mp hx with hx | hx
        · exact (hsub x hx).trans Finset.subset_union_left
        · rw [List.mem_singleton.mp hx]
          exact Finset.subset_union_right
      · apply List.pairwise_append.mpr
        refine ⟨hp, by simp, ?_⟩
        intro a ha b hb
        rw [List.mem_singleton.mp hb]
        have hd : Disjoint (get_filter_set solution) fs :=
          Finset.disjoint_iff_inter_eq_empty.mpr h
        exact Finset.disjoint_iff_inter_eq_empty.mp (hd.mono_right (hsub a ha)).symm
    · rw [select_go_cons_neg h]
      refine ih selection _ (fun x hx => (hsub x hx).trans ?_) hp
      by_cases hc : cum
      · rw [if_pos hc]
        exact Finset.subset_union_left
      · rw [if_neg hc]

/-- A solution with an empty filter set is accepted by the scan wherever it
occurs in the remaining input. -/
lemma mem_select_go_of_empty {cum : Bool} {s : Solution} (hs : get_filter_set s = ∅) :
    ∀ (l selection : List Solution) (fs : Finset TokenPair), s ∈ l →
      s ∈ select_go cum l selection fs := by
  intro l
  induction l with
  | nil =>
    intro selection fs h
    exact absurd h (List.not_mem_nil s)
  | cons solution rest ih =>
    intro selection fs hmem
    rcases List.mem_cons.mp hmem with rfl | hmem
    · have h : get_filter_set s ∩ fs = ∅ := by
        rw [hs]
        exact Finset.empty_inter fs
      rw [select_go_cons_pos h]
      exact mem_select_go_of_mem_selection (List.mem_append_right _ (by simp))
    · by_cases h : get_filter_set solution ∩ fs = ∅
      · rw [select_go_cons_pos h]
        exact ih _ _ hmem
      · rw [select_go_cons_neg h]
        exact ih _ _ hmem

/-- Invariant proof for C6 (non-cumulative mode): when the blocked set is
exactly the union of the selected solutions' filter sets and all selected and
remaining solutions respect the descending score order, a rejected solution
conflicts with some selected solution of at least equal score. -/
lemma select_go_reject_blocked :
    ∀ (l selection : List Solution) (fs : Finset TokenPair),
      (∀ p, p ∈ fs ↔ ∃ x ∈ selection, p ∈ get_filter_set x) →
      (∀ w ∈ selection, ∀ x ∈ l, x.score ≤ w.score) →
      l.Pairwise (fun a b => b.score ≤ a.score) →
      ∀ s ∈ l, s ∉ select_go false l selection fs →
        ∃ w ∈ select_go false l selection fs,
          s.score ≤ w.score ∧ get_filter_set s ∩ get_filter_set w ≠ ∅ := by
  intro l
  induction l with
  | nil =>
    intro selection fs _ _ _ s hs _
    exact absurd hs (List.not_mem_nil s)
  | cons solution rest ih =>
    intro selection fs hfs hscore hpair s hs hnot
    rcases List.pairwise_cons.mp hpair with ⟨hsolrest, hrest⟩
    by_cases h : get_filter_set solution ∩ fs = ∅
    · rw [select_go_cons_pos h] at hnot ⊢
      rcases List.mem_cons.mp hs with rfl | hs
      · exact absurd (mem_select_go_of_mem_selection (List.mem_append_right _ (by simp))) hnot
      · refine ih (selection ++ [solution]) (fs ∪ get_filter_set solution) ?_ ?_ hrest s hs hnot
        · intro p
          constructor
          · intro hp
            rcases Finset.mem_union.mp hp with hp | hp
            · obtain ⟨x, hx, hpx⟩ := (hfs p).mp hp
              exact ⟨x, List.mem_append_left _ hx, hpx⟩
            · exact ⟨solution, List.mem_append_right _ (by simp), hp⟩
          · rintro ⟨x, hx, hpx⟩
            rcases List.mem_append.mp hx with hx | hx
            · exact Finset.mem_union_left _ ((hfs p).mpr ⟨x, hx, hpx⟩)
            · rw [List.mem_singleton.mp hx] at hpx
              exact Finset.mem_union_right _ hpx
        · intro w hw x hx
          rcases List.mem_append.mp hw with hw | hw
          · exact hscore w hw x (List.mem_cons_of_mem _ hx)
          · rw [List.mem_singleton.mp hw]
            exact hsolrest x hx
    · rw [select_go_cons_neg_false h] at hnot ⊢
      rcases List.mem_cons.mp hs with rfl | hs
      · obtain ⟨p, hp⟩ := Finset.nonempty_iff_ne_empty.mpr h
        obtain ⟨w, hw, hpw⟩ := (hfs p).mp (Finset.mem_inter.mp hp).2
        refine ⟨w, mem_select_go_of_mem_selection hw,
          hscore w hw s (List.mem_cons_self _ _), ?_⟩
        intro hempty
        have hmem : p ∈ get_filter_set s ∩ get_filter_set w :=
          Finset.mem_inter.mpr ⟨(Finset.mem_inter.mp hp).1, hpw⟩
        rw [hempty] at hmem
        exact absurd hmem (Finset.not_mem_empty p)
      · exact ih selection fs hfs
          (fun w hw x hx => hscore w hw x (List.mem_cons_of_mem _ hx)) hrest s hs hnot

/-! ### Filter helpers -/

lemma mem_baselineFilter {sols : List Solution} {s : Solution} :
    s ∈ BaselineFilter_filter sols ↔
      s ∈ sols ∧ baselinePasses (compute_baseline_solutions sols) s = true := by
  simp [BaselineFilter_filter, List.mem_filter]

/-! ### Claims -/

/-- C1: the claim says `NoReward.compute_rewards` keys the reward mapping by
the winners' solver identifiers.  The code keys it by `winner.id`, the
solution id: on a winner with solution id "sol1" and solver "solverA" the
returned mapping has key "sol1", not "solverA", contradicting the
`RewardMechanism` docstring which says keys are solvers. -/
theorem C1_noReward_keys_are_solution_ids :
    NoReward_compute_rewards [w1c] [w1c] = [("sol1", 0)] ∧
    w1c.id = "sol1" ∧ w1c.solver = "solverA" ∧ ("sol1" : String) ≠ "solverA" :=
  ⟨rfl, rfl, rfl, by decide⟩

/-- C2 counterexample: the claim says S2 (single trade on (A, B), score 7) is
rejected by `BaselineFilter.filter` because 7 < 10; in fact S2 touches exactly
one token pair, so the single-pair shortcut accepts it. -/
theorem C2_counterexample : S2c ∈ BaselineFilter_filter [S1c, S2c] := by decide

/-- C2 (amended): the baseline for (A, B) is S1 (score 10), and
`BaselineFilter.filter` accepts S2 as well, because solutions touching exactly
one token pair always pass; the output is [S1, S2]. -/
theorem C2_baseline_is_S1_and_S2_passes :
    alookup (compute_baseline_solutions [S1c, S2c]) ("A", "B") = some S1c ∧
    BaselineFilter_filter [S1c, S2c] = [S1c, S2c] := by
  exact ⟨by decide, by decide⟩

/-- C3: every solution of the input whose aggregated-score mapping has exactly
one key is contained in the output of `BaselineFilter.filter`. -/
theorem C3_single_pair_survives (sols : List Solution) (s : Solution) (hs : s ∈ sols)
    (h1 : (aggregate_scores s).length = 1) : s ∈ BaselineFilter_filter sols := by
  refine mem_baselineFilter.mpr ⟨hs, ?_⟩
  simp [baselinePasses, h1]

/-- C3 witness at a concrete input. -/
theorem C3_witness :
    S1c ∈ [S1c, S2c] ∧ (aggregate_scores S1c).length = 1 ∧
    S1c ∈ BaselineFilter_filter [S1c, S2c] :=
  ⟨by decide, by decide, C3_single_pair_survives [S1c, S2c] S1c (by decide) (by decide)⟩

/-- C4: a surviving solution that touches more than one token pair has, on
every pair it touches, an aggregated score at least the sum of the baseline
solution's trades' scores for that pair (`baselineTotalScore` is that sum, and
`0` when no baseline exists). -/
theorem C4_baseline_dominance (sols : List Solution) (s : Solution)
    (hs : s ∈ BaselineFilter_filter sols) (hmulti : 1 < (aggregate_scores s).length) :
    ∀ p ∈ aggregate_scores s,
      baselineTotalScore (compute_baseline_solutions sols) p.1 ≤ p.2 := by
  intro p hp
  have hpass := (mem_baselineFilter.mp hs).2
  simp only [baselinePasses, Bool.or_eq_true] at hpass
  rcases hpass with h1 | hall
  · have : (aggregate_scores s).length = 1 := by simpa using h1
    omega
  · exact of_decide_eq_true (List.all_eq_true.mp hall p hp)

/-- C4 witness at a concrete input: a two-pair solution with no baselines. -/
theorem C4_witness :
    sMultic ∈ BaselineFilter_filter [sMultic] ∧ 1 < (aggregate_scores sMultic).length ∧
    baselineTotalScore (compute_baseline_solutions [sMultic]) ("A", "B") ≤ 4 :=
  ⟨by decide, by decide,
    C4_baseline_dominance [sMultic] sMultic (by decide) (by decide) (("A", "B"), 4) (by decide)⟩

/-- C5: for both values of `cumulative_filtering`, any two solutions at
distinct positions of the output of `select_solutions` have disjoint
`DirectedTokenPairs` conflict sets. -/
theorem C5_selected_pairwise_disjoint (cum : Bool) (sols : List Solution)
    (i j : Nat) (hi : i < (select_solutions cum sols).length)
    (hj : j < (select_solutions cum sols).length) (hij : i ≠ j) :
    get_filter_set ((select_solutions cum sols).get ⟨i, hi⟩) ∩
      get_filter_set ((select_solutions cum sols).get ⟨j, hj⟩) = ∅ := by
  have hp : (select_solutions cum sols).Pairwise
      (fun a b => get_filter_set a ∩ get_filter_set b = ∅) := by
    apply select_go_pairwise
    · intro x hx
      exact absurd hx (List.not_mem_nil x)
    · exact List.Pairwise.nil
  rcases Nat.lt_or_ge i j with hlt | hge
  · exact (List.pairwise_iff_get.mp hp) ⟨i, hi⟩ ⟨j, hj⟩ hlt
  · have hlt : j < i := lt_of_le_of_ne hge (Ne.symm hij)
    rw [Finset.inter_comm]
    exact (List.pairwise_iff_get.mp hp) ⟨j, hj⟩ ⟨i, hi⟩ hlt

/-- C5 witness at a concrete input with two selected solutions. -/
theorem C5_witness :
    get_filter_set ((select_solutions false [S1c, SCDc]).get ⟨0, by decide⟩) ∩
      get_filter_set ((select_solutions false [S1c, SCDc]).get ⟨1, by decide⟩) = ∅ :=
  C5_selected_pairwise_disjoint false [S1c, SCDc] 0 1 (by decide) (by decide) (by decide)

/-- C6: with `cumulative_filtering` false, a solution of the input that is not
selected conflicts with some selected solution of at least equal score. -/
theorem C6_reject_only_when_blocked (sols : List Solution) (s : Solution)
    (hs : s ∈ sols) (hnot : s ∉ select_solutions false sols) :
    ∃ w ∈ select_solutions false sols,
      s.score ≤ w.score ∧ get_filter_set s ∩ get_filter_set w ≠ ∅ := by
  have hsort : s ∈ sortedSolutions sols := (sortedSolutions_perm sols).mem_iff.mpr hs
  exact select_go_reject_blocked (sortedSolutions sols) [] ∅
    (by intro p; simp)
    (by intro w hw; exact absurd hw (List.not_mem_nil w))
    (sortedSolutions_pairwise sols) s hsort hnot

/-- C6 witness at a concrete input: S2 is rejected because S1 (score 10 ≥ 7)
blocked the pair (A, B). -/
theorem C6_witness :
    S2c ∈ [S1c, S2c] ∧
    ∃ w ∈ select_solutions false [S1c, S2c],
      S2c.score ≤ w.score ∧ get_filter_set S2c ∩ get_filter_set w ≠ ∅ :=
  ⟨by decide, C6_reject_only_when_blocked [S1c, S2c] S2c (by decide) (by decide)⟩

/-- C7: with `remove_executed_orders` true, each auction's solutions are first
rewritten by `remove_order_from_solution` (same id and solver, settled trades
removed in order, score recomputed as the sum of the remaining trades'
scores), solutions with non-positive recomputed score are dropped before the
mechanism runs, and in the concrete two-auction scenario the solution whose
only trade was settled by auction 1 ends with empty trades and score 0 and is
dropped. -/
theorem C7_remove_executed_orders :
    (∀ (s : Solution) (settled : Finset String),
        (remove_order_from_solution s settled).id = s.id ∧
        (remove_order_from_solution s settled).solver = s.solver ∧
        (remove_order_from_solution s settled).trades =
          s.trades.filter (fun t => decide (t.id ∉ settled)) ∧
        (remove_order_from_solution s settled).score =
          ((remove_order_from_solution s settled).trades.map Trade.score).sum) ∧
    (∀ (mech : List Solution → List Solution × List (String × Int))
        (settled : Finset String) (solutions : List Solution) (rest : List (List Solution)),
        run_cf_trace mech true settled (solutions :: rest) =
          ((mech (prepare_auction settled solutions)).1,
            settled ∪ get_orders (mech (prepare_auction settled solutions)).1) ::
          run_cf_trace mech true
            (settled ∪ get_orders (mech (prepare_auction settled solutions)).1) rest) ∧
    (∀ (settled : Finset String) (solutions : List Solution) (s : Solution), s ∈ solutions →
        0 < (remove_order_from_solution s settled).score →
        remove_order_from_solution s settled ∈ prepare_auction settled solutions) ∧
    (∀ (settled : Finset String) (solutions : List Solution) (s : Solution),
        s ∈ prepare_auction settled solutions → 0 < s.score) ∧
    ((remove_order_from_solution sol2c (get_orders [sol1c])).trades = [] ∧
      (remove_order_from_solution sol2c (get_orders [sol1c])).score = 0 ∧
      prepare_auction (get_orders [sol1c]) [sol2c] = [] ∧
      run_counter_factual_winners [[sol1c], [sol2c]] mechC true = [[sol1c], []]) := by
  refine ⟨?_, ?_, ?_, ?_, ?_⟩
  · intro s settled
    exact ⟨rfl, rfl, rfl, rfl⟩
  · intro mech settled solutions rest
    rfl
  · intro settled solutions s hs hpos
    exact List.mem_filter.mpr ⟨List.mem_map.mpr ⟨s, hs, rfl⟩, decide_eq_true hpos⟩
  · intro settled solutions s hsmem
    exact of_decide_eq_true (List.mem_filter.mp hsmem).2
  · exact ⟨by decide, by decide, by decide, by decide⟩

/-- C7 witness at a concrete input: a solution with positive remaining score
survives the drop step. -/
theorem C7_witness :
    sol1c ∈ [sol1c] ∧ 0 < (remove_order_from_solution sol1c ∅).score ∧
    remove_order_from_solution sol1c ∅ ∈ prepare_auction ∅ [sol1c] :=
  ⟨by decide, by decide,
    C7_remove_executed_orders.2.2.1 ∅ [sol1c] sol1c (by decide) (by decide)⟩

/-! ### Trace helpers for the settled-set recurrence -/

lemma run_cf_trace_head (mech : List Solution → List Solution × List (String × Int))
    (remove : Bool) (settled : Finset String) (auctions : List (List Solution))
    (w : List Solution) (s : Finset String)
    (h : (run_cf_trace mech remove settled auctions)[0]? = some (w, s)) :
    s = settled ∪ get_orders w := by
  cases auctions with
  | nil => simp [run_cf_trace] at h
  | cons a rest =>
    simp only [run_cf_trace, List.getElem?_cons_zero, Option.some.injEq, Prod.mk.injEq] at h
    rw [← h.2, ← h.1]

lemma run_cf_trace_step (mech : List Solution → List Solution × List (String × Int))
    (remove : Bool) :
    ∀ (auctions : List (List Solution)) (settled : Finset String) (n : Nat)
      (w : List Solution) (s : Finset String) (w' : List Solution) (s' : Finset String),
      (run_cf_trace mech remove settled auctions)[n]? = some (w, s) →
      (run_cf_trace mech remove settled auctions)[n + 1]? = some (w', s') →
      s' = s ∪ get_orders w' := by
  intro auctions
  induction auctions with
  | nil =>
    intro settled n w s w' s' h _
    simp [run_cf_trace] at h
  | cons a rest ih =>
    intro settled n w s w' s' h h'
    cases n with
    | zero =>
      simp only [run_cf_trace, List.getElem?_cons_zero, Option.some.injEq,
        Prod.mk.injEq] at h
      simp only [run_cf_trace, List.getElem?_cons_succ] at h'
      have := run_cf_trace_head mech remove _ rest w' s' h'
      rw [this, h.2]
    | succ n =>
      simp only [run_cf_trace, List.getElem?_cons_succ] at h h'
      exact ih _ n w s w' s' h h'

/-- C8: the settled-order set recorded after an auction is the union of the
set before that auction with the trade ids of that auction's winners; the run
starts from the empty set, and the settled set only ever grows. -/
theorem C8_settled_set_monotone :
    (∀ (mech : List Solution → List Solution × List (String × Int)) (remove : Bool)
        (auctions : List (List Solution)),
        run_counter_factual_winners auctions mech remove =
          (run_cf_trace mech remove ∅ auctions).map Prod.fst) ∧
    (∀ (mech : List Solution → List Solution × List (String × Int)) (remove : Bool)
        (settled : Finset String) (auctions : List (List Solution))
        (w : List Solution) (s : Finset String),
        (run_cf_trace mech remove settled auctions)[0]? = some (w, s) →
        s = settled ∪ get_orders w ∧ settled ⊆ s) ∧
    (∀ (mech : List Solution → List Solution × List (String × Int)) (remove : Bool)
        (settled : Finset String) (auctions : List (List Solution)) (n : Nat)
        (w : List Solution) (s : Finset String) (w' : List Solution) (s' : Finset String),
        (run_cf_trace mech remove settled auctions)[n]? = some (w, s) →
        (run_cf_trace mech remove settled auctions)[n + 1]? = some (w', s') →
        s' = s ∪ get_orders w' ∧ s ⊆ s') := by
  refine ⟨fun _ _ _ => rfl, ?_, ?_⟩
  · intro mech remove settled auctions w s h
    have := run_cf_trace_head mech remove settled auctions w s h
    exact ⟨this, by rw [this]; exact Finset.subset_union_left⟩
  · intro mech remove settled auctions n w s w' s' h h'
    have := run_cf_trace_step mech remove auctions settled n w s w' s' h h'
    exact ⟨this, by rw [this]; exact Finset.subset_union_left⟩

/-- C8 witness at a concrete input: after auction 1 the settled set holds the
winner's trade id "t1", and the set after auction 2 still contains it. -/
theorem C8_witness :
    ((run_cf_trace mechC true ∅ [[sol1c], [sol2c]])[0]? =
      some ([sol1c], insert "t1" ∅)) ∧
    ((insert "t1" ∅ : Finset String) = insert "t1" ∅ ∪ get_orders [] ∧
      (insert "t1" ∅ : Finset String) ⊆ insert "t1" ∅) :=
  ⟨by decide,
    C8_settled_set_monotone.2.2 mechC true ∅ [[sol1c], [sol2c]] 0 [sol1c]
      (insert "t1" ∅) [] (insert "t1" ∅) (by decide) (by decide)⟩

/-- C9: the selection output is a subsequence of the stable
descending-by-score sort of the input, hence in non-increasing score order;
`sortedSolutions` is that stable sort: it is a permutation of the input, it is
sorted descending, and any descending-sorted subsequence of the input keeps
its relative order in it (so equal-score solutions appear in input order).
The output is a function of the input list, hence deterministic. -/
theorem C9_output_subsequence_of_stable_sort (cum : Bool) (sols : List Solution) :
    select_solutions cum sols <+ sortedSolutions sols ∧
    (select_solutions cum sols).Pairwise (fun a b => b.score ≤ a.score) ∧
    sortedSolutions sols ~ sols ∧
    (sortedSolutions sols).Pairwise (fun a b => b.score ≤ a.score) ∧
    (∀ c : List Solution, c <+ sols → c.Pairwise (fun a b => b.score ≤ a.score) →
      c <+ sortedSolutions sols) := by
  have hsub : select_solutions cum sols <+ sortedSolutions sols := by
    obtain ⟨t, ht, hsubl⟩ := select_go_append cum (sortedSolutions sols) [] ∅
    have heq : select_solutions cum sols = t := by simpa [select_solutions] using ht
    rw [heq]
    exact hsubl
  exact ⟨hsub, (sortedSolutions_pairwise sols).sublist hsub, sortedSolutions_perm sols,
    sortedSolutions_pairwise sols, fun c hc hcp => sublist_sortedSolutions hc hcp⟩

/-- C9 witness at a concrete input. -/
theorem C9_witness : [S1c] <+ sortedSolutions [S1c] :=
  (C9_output_subsequence_of_stable_sort false [S1c]).2.2.2.2 [S1c]
    (List.Sublist.refl _) (by simp)

/-- C10: a solution with an empty trades list always passes
`BaselineFilter.filter`, is always accepted by `select_solutions` (its
conflict set is empty), and is always among the winners of the composed
`FilterRankRewardMechanism`. -/
theorem C10_empty_solution_always_wins (cum : Bool) (sols : List Solution) (s : Solution)
    (hs : s ∈ sols) (ht : s.trades = []) :
    s ∈ BaselineFilter_filter sols ∧ s ∈ select_solutions cum sols ∧
    s ∈ (FilterRankRewardMechanism_winners_and_rewards BaselineFilter_filter
      (select_solutions cum) NoReward_compute_rewards sols).1 := by
  have hagg : aggregate_scores s = [] := by simp [aggregate_scores, ht]
  have hfs : get_filter_set s = ∅ := by simp [get_filter_set, ht]
  have hfilter : s ∈ BaselineFilter_filter sols := by
    refine mem_baselineFilter.mpr ⟨hs, ?_⟩
    simp [baselinePasses, hagg]
  have hsel : ∀ l2 : List Solution, s ∈ l2 → s ∈ select_solutions cum l2 := fun l2 h2 =>
    mem_select_go_of_empty hfs (sortedSolutions l2) [] ∅
      ((sortedSolutions_perm l2).mem_iff.mpr h2)
  exact ⟨hfilter, hsel sols hs, hsel (BaselineFilter_filter sols) hfilter⟩

/-- C10 witness at a concrete input. -/
theorem C10_witness :
    s0c ∈ [s0c, S1c] ∧ s0c.trades = [] ∧
    s0c ∈ (FilterRankRewardMechanism_winners_and_rewards BaselineFilter_filter
      (select_solutions false) NoReward_compute_rewards [s0c, S1c]).1 :=
  ⟨by decide, rfl, (C10_empty_solution_always_wins false [s0c, S1c] s0c (by decide) rfl).2.2⟩
